import Mathlib

/-!
# checkResourcesv1.go: a verification development

A shallow embedding of `src/Tools/checkResourcesv1.go` (package `main`): the process
memory ranker (`checkPressMem`, `ByMemory`), the disk usage mappers (`getInode`,
`getDiskInfo`), the CPU samplers (`checkCpu`, `checkCpuLoad`) and the top-processes
loop of `main`.

Conventions of the embedding.

* A provider call `v, err := f()` is given by its outcome `Except String α`:
  `.error e` when `err != nil` (the library then returns the zero value: a nil
  slice or a nil pointer), `.ok v` otherwise.
* A function of the program that can hit a Go run-time panic (index out of range,
  nil pointer dereference, slice bounds out of range) returns `Option`; `none` is
  the panic.
* `runtime.GOOS` is a parameter `GOOS : String`.
* Go strings are sequences of bytes; they are embedded as Lean strings (sequences
  of code points).  For valid UTF-8 the substring tests and the trimming used
  here agree on both views.
* `int32` and `uint64` fields are `Int` and `Nat`: the program does no arithmetic
  on them that could overflow (`Memory/1024/1024` only shrinks).
-/

namespace CheckResources

/-! ## Process memory ranker -/

/-- `type ProcessInfo struct { Pid int32; Memory uint64 }`. -/
structure ProcessInfo where
  Pid : Int
  Memory : Nat
deriving DecidableEq, Repr, Inhabited

namespace ByMemory

/-- `func (a ByMemory) Len() int { return len(a) }`. -/
def Len (a : List ProcessInfo) : Nat := a.length

/-- `func (a ByMemory) Swap(i, j int) { a[i], a[j] = a[j], a[i] }`. -/
def Swap (a : List ProcessInfo) (i j : Nat) : List ProcessInfo :=
  (a.set i (a.getD j default)).set j (a.getD i default)

/-- `func (a ByMemory) Less(i, j int) bool { return a[i].Memory > a[j].Memory }`. -/
def Less (a : List ProcessInfo) (i j : Nat) : Bool :=
  decide ((a.getD i default).Memory > (a.getD j default).Memory)

end ByMemory

/-- The inner loop of the library's `insertionSort(data, a, b)`:
`for j := i; j > a && data.Less(j, j-1); j-- { data.Swap(j, j-1) }`,
started at `j`. -/
def insertionSortInner (data : List ProcessInfo) (a : Nat) : Nat → List ProcessInfo
  | 0 => data
  | j + 1 =>
    if j + 1 > a && ByMemory.Less data (j + 1) j then
      insertionSortInner (ByMemory.Swap data (j + 1) j) a j
    else data

/-- The outer loop of `insertionSort`: `for i := a + 1; i < b; i++ { ... }`, with
`n = b - i` iterations left. -/
def insertionSortOuter (a : Nat) : Nat → Nat → List ProcessInfo → List ProcessInfo
  | 0, _, data => data
  | n + 1, i, data => insertionSortOuter a n (i + 1) (insertionSortInner data a i)

/-- Library `insertionSort(data Interface, a, b int)` over the `ByMemory` methods. -/
def insertionSort (data : List ProcessInfo) (a b : Nat) : List ProcessInfo :=
  insertionSortOuter a (b - (a + 1)) (a + 1) data

/-- `sort.Sort(ByMemory(processInfoList))`.  The library sorts through the three
`ByMemory` methods only; it is unstable and its algorithm is not part of its
contract.  It is embedded as the library's `insertionSort`, the routine `sort.Sort`
itself runs on slices of at most 12 elements. -/
def sortSort (data : List ProcessInfo) : List ProcessInfo :=
  let n := ByMemory.Len data
  if n ≤ 1 then data else insertionSort data 0 n

/-- `process.MemoryInfoStat`, of which the program reads `RSS` only. -/
structure MemoryInfoStat where
  RSS : Nat
deriving DecidableEq, Repr

/-- A `*process.Process` handle as the program sees it: its `Pid` and the outcome
of its `MemoryInfo()` call. -/
structure Process where
  Pid : Int
  MemoryInfo : Except String MemoryInfoStat

/-- The loop of `checkPressMem`: a process whose `MemoryInfo()` fails is skipped
(`continue`), every other one is appended as `ProcessInfo{Pid, RSS}`. -/
def collectProcessInfo : List Process → List ProcessInfo → List ProcessInfo
  | [], processInfoList => processInfoList
  | p :: rest, processInfoList =>
    match p.MemoryInfo with
    | .error _ => collectProcessInfo rest processInfoList
    | .ok memInfo =>
      collectProcessInfo rest (processInfoList ++ [{ Pid := p.Pid, Memory := memInfo.RSS }])

/-- `func checkPressMem() []ProcessInfo`, given the outcome of `process.Processes()`. -/
def checkPressMem (processes : Except String (List Process)) : List ProcessInfo :=
  match processes with
  | .error _ => []
  | .ok ps => sortSort (collectProcessInfo ps [])

/-- One line of the top-processes loop of `main`:
`fmt.Printf("%d. PID: %d, Memory Usage: %d MB\n", i+1, v.Pid, v.Memory/1024/1024)`. -/
def topProcessLine (i : Nat) (v : ProcessInfo) : String :=
  toString (i + 1) ++ ". PID: " ++ toString v.Pid ++ ", Memory Usage: " ++
    toString (v.Memory / 1024 / 1024) ++ " MB\n"

/-- The slice expression `Proc[0:5]` of `main`.  It panics unless `5 <= cap(Proc)`.
`Proc` is nil or was grown by `append` one element at a time from nil, so its
capacity is 0, 1, 2, 4, 8, ... and `cap(Proc) < 5` exactly when `len(Proc) < 5`;
the check is therefore stated on the length. -/
def sliceFirstFive (Proc : List ProcessInfo) : Option (List ProcessInfo) :=
  if 5 ≤ Proc.length then some (Proc.take 5) else none

/-- The top-processes section of `main` (after its header line):
`for i, v := range Proc[0:5] { fmt.Printf(...) }`; the lines printed, or `none`
when the slice expression panics. -/
def mainTopProcesses (Proc : List ProcessInfo) : Option (List String) :=
  (sliceFirstFive Proc).map fun vs => vs.enum.map fun iv => topProcessLine iv.1 iv.2


/-! ## float64 -/

/-- A `float64` value.  `finite neg mant exp` is `(-1)^neg * mant * 2^exp`, which
covers every finite double exactly (with `mant < 2^53`, `-1074 ≤ exp ≤ 971`),
both zeros included; the type also admits dyadic numbers of higher precision. -/
inductive Float64 where
  | finite (neg : Bool) (mant : Nat) (exp : Int)
  | inf (neg : Bool)
  | nan
deriving DecidableEq, Repr

namespace Float64

/-- The exact value of a finite `float64` (0 for the non-finite ones). -/
def toRat : Float64 → ℚ
  | finite neg mant exp => (if neg then -1 else 1) * (mant : ℚ) * (2 : ℚ) ^ exp
  | _ => 0

/-- The number of binary digits of `n` (0 for 0). -/
def bitLength (n : Nat) : Nat := if n = 0 then 0 else (Nat.toDigits 2 n).length

/-- Quotient `num / den` rounded to the nearest integer, ties to even. -/
def divRoundHalfEven (num den : Nat) : Nat :=
  let q := num / den
  let r := num % den
  if 2 * r > den then q + 1
  else if 2 * r = den then (if q % 2 = 1 then q + 1 else q)
  else q

/-- The double nearest to `(-1)^neg * num / den` (`den > 0`), ties to even, with
gradual underflow and overflow to infinity: the rounding of every IEEE 754
operation and of `strconv.ParseFloat`. -/
def roundRatio (neg : Bool) (num den : Nat) : Float64 :=
  if num = 0 then finite neg 0 0
  else
    let e0 : Int := (bitLength num : Int) - (bitLength den : Int) - 52
    let scaled (e : Int) : Nat × Nat :=
      if e < 0 then (num * 2 ^ (-e).toNat, den) else (num, den * 2 ^ e.toNat)
    let m0 := (scaled e0).1 / (scaled e0).2
    let e1 : Int := if m0 < 2 ^ 52 then e0 - 1 else e0
    let e : Int := if e1 < -1074 then -1074 else e1
    let m := divRoundHalfEven (scaled e).1 (scaled e).2
    let (m, e) := if m = 2 ^ 53 then (2 ^ 52, e + 1) else (m, e)
    if e > 971 then inf neg else finite neg m e

/-- Conversion `float64(n)` of an `int`. -/
def ofInt (n : Int) : Float64 := roundRatio (decide (n < 0)) n.natAbs 1

/-- Division `x / y` of two `float64`. -/
def div : Float64 → Float64 → Float64
  | nan, _ => nan
  | _, nan => nan
  | inf _, inf _ => nan
  | inf n1, finite n2 _ _ => inf (n1 != n2)
  | finite n1 _ _, inf n2 => finite (n1 != n2) 0 0
  | finite n1 m1 e1, finite n2 m2 e2 =>
    if m2 = 0 then (if m1 = 0 then nan else inf (n1 != n2))
    else roundRatio (n1 != n2) (m1 * 2 ^ (e1 - e2).toNat) (m2 * 2 ^ (e2 - e1).toNat)

end Float64

/-- `math.Ceil(x)`: the least integer value not below `x`; `Ceil(±0) = ±0`,
`Ceil(±Inf) = ±Inf`, `Ceil(NaN) = NaN`, and a negative `x > -1` gives `-0`.
The result is exact. -/
def mathCeil : Float64 → Float64
  | .nan => .nan
  | .inf neg => .inf neg
  | .finite neg mant exp =>
    if exp ≥ 0 then .finite neg (mant * 2 ^ exp.toNat) 0
    else
      let d := 2 ^ (-exp).toNat
      if neg then .finite true (mant / d) 0 else .finite false ((mant + d - 1) / d) 0

/-- Decimal digits of `n` without its trailing zeros (empty for 0). -/
def significantDigits (n : Nat) : List Char :=
  ((Nat.toDigits 10 n).reverse.dropWhile (fun c => c == '0')).reverse

/-- The `%e` form of a positive integer `n` with the digits `significantDigits n`:
`d.ddde+XX`, the exponent written with at least two digits. -/
def formatExponent (n : Nat) : String :=
  let x := (Nat.toDigits 10 n).length - 1
  let mantissa : List Char :=
    match significantDigits n with
    | [] => ['0']
    | [d] => [d]
    | d :: ds => d :: '.' :: ds
  String.mk mantissa ++ "e+" ++ (if x < 10 then "0" else "") ++ toString x

/-- Verb `%v` of `fmt` on a `float64` (that is `%g` with the shortest digits that
read back to the same double, the `%e` form being used for a decimal exponent
below -4 or at least 6).  Every call site of the program passes the result of
`math.Ceil`; the embedding is exact for `NaN`, `±Inf` and every integer value of
magnitude below `2^53`, whose shortest digits are its own decimal digits.  For the
remaining values (not integers, or at least `2^53`) it prints the digits of the
integer part of the magnitude, where the library would search for the shortest
digits. -/
def formatV : Float64 → String
  | .nan => "NaN"
  | .inf neg => if neg then "-Inf" else "+Inf"
  | .finite neg mant exp =>
    let n : Nat := if exp ≥ 0 then mant * 2 ^ exp.toNat else mant / 2 ^ (-exp).toNat
    (if neg then "-" else "") ++ (if n < 10 ^ 6 then toString n else formatExponent n)

/-- The expression `fmt.Sprintf("%v%%", x)`. -/
def sprintfPercent (x : Float64) : String := formatV x ++ "%"

/-- Verb `%.2f`, also `strconv.FormatFloat(x, 'f', 2, 64)`: the exact value rounded
to two decimals, ties to even; `NaN`, `+Inf`, `-Inf` for the non-finite values. -/
def formatFixed2 : Float64 → String
  | .nan => "NaN"
  | .inf neg => if neg then "-Inf" else "+Inf"
  | .finite neg mant exp =>
    let h : Nat :=
      if exp ≥ 0 then mant * 2 ^ exp.toNat * 100
      else Float64.divRoundHalfEven (mant * 100) (2 ^ (-exp).toNat)
    (if neg then "-" else "") ++ toString (h / 100) ++ "." ++
      toString (h % 100 / 10) ++ toString (h % 10)

/-- Value of a string of decimal digits, `none` when a character is not a digit
or the string is empty. -/
def parseDigits (cs : List Char) : Option Nat :=
  if cs.isEmpty then none
  else cs.foldl (fun acc c =>
    match acc with
    | none => none
    | some n => if c.isDigit then some (n * 10 + (c.toNat - '0'.toNat)) else none) (some 0)

/-- `v, _ := strconv.ParseFloat(s, 64)` on the strings `%.2f` produces: an optional
sign, decimal digits, a point and decimal digits, or `NaN`, `+Inf`, `-Inf`.  The
value is the nearest double.  Any other string is taken as a syntax error, on
which the library returns 0 (the other syntaxes the library accepts, such as
exponents and hexadecimal floats, are never produced by `%.2f`). -/
def parseFloat (s : String) : Float64 :=
  if s = "NaN" then .nan
  else if s = "+Inf" then .inf false
  else if s = "-Inf" then .inf true
  else
    let (neg, body) : Bool × List Char :=
      match s.data with
      | '-' :: cs => (true, cs)
      | '+' :: cs => (false, cs)
      | cs => (false, cs)
    let intPart := body.takeWhile (fun c => c != '.')
    let fracPart := (body.dropWhile (fun c => c != '.')).drop 1
    match parseDigits intPart, parseDigits fracPart with
    | some i, some f =>
      Float64.roundRatio neg (i * 10 ^ fracPart.length + f) (10 ^ fracPart.length)
    | _, _ => .finite false 0 0

/-! ## CPU samplers -/

/-- `func checkCpu() string`, given the outcome of `cpu.Percent(5s, false)`.  The
error is discarded (`res, _ :=`); `res[0]` panics on an empty or nil `res`. -/
def checkCpu (percent : Except String (List Float64)) : Option String :=
  let res : List Float64 := match percent with
    | .ok r => r
    | .error _ => []
  match res with
  | [] => none
  | res0 :: _ =>
    let resout := formatFixed2 res0
    let roundedAverage := parseFloat resout
    some ("CPU使用率:  " ++ formatFixed2 roundedAverage ++ "%")

/-- `load.AvgStat`. -/
structure AvgStat where
  Load1 : Float64
  Load5 : Float64
  Load15 : Float64

/-- `func checkCpuLoad() string`, given `runtime.GOOS` and the outcomes of
`cpu.Counts(false)` and `load.Avg()`. -/
def checkCpuLoad (GOOS : String) (counts : Except String Int)
    (avg : Except String AvgStat) : String :=
  if GOOS = "linux" then
    match counts with
    | .error _ => "Check Cpu Error"
    | .ok pcnt =>
      match avg with
      | .error _ => "Check Cpu Error"
      | .ok stat =>
        let load_cpu := Float64.div stat.Load5 (Float64.ofInt pcnt)
        let resout := formatFixed2 load_cpu
        let roundedAverage := parseFloat resout
        "CPU负载: " ++ formatFixed2 roundedAverage
  else ""


/-! ## Strings, maps and their JSON encoding -/

/-- Whether `sub` occurs in `cs` at some position. -/
def containsChars (sub : List Char) : List Char → Bool
  | [] => sub.isEmpty
  | c :: cs => sub.isPrefixOf (c :: cs) || containsChars sub cs

/-- `strings.Contains(s, substr)`. -/
def stringsContains (s substr : String) : Bool := containsChars substr.data s.data

/-- `strings.TrimRight(s, cutset)`: `s` without all its trailing characters that
occur in `cutset`. -/
def stringsTrimRight (s cutset : String) : String :=
  String.mk (s.data.reverse.dropWhile (fun c => cutset.data.contains c)).reverse

/-- Strict order of two strings by code points, which is the byte order of their
UTF-8 encodings: the order in which `json.Marshal` writes the keys of a map. -/
def keyLess : List Char → List Char → Bool
  | [], [] => false
  | [], _ :: _ => true
  | _ :: _, [] => false
  | a :: as, b :: bs => a.toNat < b.toNat || (a == b && keyLess as bs)

/-- A `map[string]string`: its entries, at most one per key.  A Go map has no
order; the list keeps the entries in the order their keys were first assigned. -/
abbrev StringMap := List (String × String)

/-- The assignment `m[k] = v`: replaces the value of `k` if the key is present,
adds the entry otherwise. -/
def StringMap.set : StringMap → String → String → StringMap
  | [], k, v => [(k, v)]
  | (k', v') :: m, k, v =>
    if k = k' then (k', v) :: m else (k', v') :: StringMap.set m k v

/-- Insertion of an entry into a list of entries sorted by key. -/
def insertByKey (kv : String × String) : List (String × String) → List (String × String)
  | [] => [kv]
  | kv' :: rest =>
    if keyLess kv.1.data kv'.1.data then kv :: kv' :: rest else kv' :: insertByKey kv rest

/-- The entries of a map in the order of their keys, as `json.Marshal` writes them. -/
def sortByKey (m : StringMap) : List (String × String) :=
  m.foldr insertByKey []

/-- A hexadecimal digit of the escapes of `encoding/json`. -/
def hexDigit (n : Nat) : Char := "0123456789abcdef".data.getD n '0'

/-- How `encoding/json` writes one character of a string, with the HTML escaping
`json.Marshal` applies: `"` and `\` get a backslash, `\b \f \n \r \t` their short
escape, the other control characters and `< > &` as well as U+2028 and U+2029 a
`\u` escape, every other character itself.  (A Lean string is valid Unicode; the
replacement of invalid UTF-8 does not arise.) -/
def jsonEscapeChar (c : Char) : List Char :=
  if c = '"' then ['\\', '"']
  else if c = '\\' then ['\\', '\\']
  else if c = '\x08' then ['\\', 'b']
  else if c = '\x0c' then ['\\', 'f']
  else if c = '\n' then ['\\', 'n']
  else if c = '\r' then ['\\', 'r']
  else if c = '\t' then ['\\', 't']
  else if c.toNat < 0x20 ∨ c = '<' ∨ c = '>' ∨ c = '&' then
    ['\\', 'u', '0', '0', hexDigit (c.toNat / 16), hexDigit (c.toNat % 16)]
  else if c.toNat = 0x2028 then ['\\', 'u', '2', '0', '2', '8']
  else if c.toNat = 0x2029 then ['\\', 'u', '2', '0', '2', '9']
  else [c]

/-- A JSON string literal. -/
def jsonString (s : String) : String :=
  "\"" ++ String.mk (s.data.flatMap jsonEscapeChar) ++ "\""

/-- `json.Marshal` of a non-nil `map[string]string`: the entries sorted by key. -/
def jsonMarshalMap (m : StringMap) : String :=
  "\x7b" ++
    ",".intercalate ((sortByKey m).map fun kv => jsonString kv.1 ++ ":" ++ jsonString kv.2) ++
    "\x7d"

/-- `json.Marshal` of a non-nil `[]map[string]string`. -/
def jsonMarshalMaps (l : List StringMap) : String :=
  "[" ++ ",".intercalate (l.map jsonMarshalMap) ++ "]"

/-! ## Disk usage mappers -/

/-- `disk.PartitionStat`, of which the program reads `Device` and `Mountpoint`. -/
structure PartitionStat where
  Device : String
  Mountpoint : String
deriving DecidableEq, Repr

/-- `disk.UsageStat`, of which the program reads the two percentages. -/
structure UsageStat where
  UsedPercent : Float64
  InodesUsedPercent : Float64
deriving DecidableEq, Repr

/-- `partInfo, _ := disk.Usage(mountpoint)`: the pointer the program keeps, `none`
for the nil pointer the library returns together with an error. -/
def usagePointer (usage : String → Except String UsageStat) (mountpoint : String) :
    Option UsageStat :=
  match usage mountpoint with
  | .ok u => some u
  | .error _ => none

/-- The Linux loop of `getInode` over the remaining partitions; `totaldiskslist` is
the list built so far.  Reading `partInfo.InodesUsedPercent` through a nil
`partInfo` panics. -/
def getInodeLoop (usage : String → Except String UsageStat) :
    List PartitionStat → List StringMap → Option (List StringMap)
  | [], totaldiskslist => some totaldiskslist
  | part :: parts, totaldiskslist =>
    let totaldisks : StringMap := []
    if stringsContains part.Device "/dev/" && !stringsContains part.Device "loop" &&
        !stringsContains part.Device "/boot/efi" &&
        !stringsContains part.Device "/dev/sda1 -" then
      match usagePointer usage part.Mountpoint with
      | none => none
      | some partInfo =>
        let totaldisks :=
          if stringsContains part.Device "dm-" then
            totaldisks.set part.Mountpoint (sprintfPercent (mathCeil partInfo.InodesUsedPercent))
          else
            totaldisks.set part.Device (sprintfPercent (mathCeil partInfo.InodesUsedPercent))
        getInodeLoop usage parts (totaldiskslist ++ [totaldisks])
    else getInodeLoop usage parts totaldiskslist

/-- The value of `totaldiskslist` that `getInode` marshals once `disk.Partitions`
has succeeded with `parts`. -/
def getInodeList (GOOS : String) (usage : String → Except String UsageStat)
    (parts : List PartitionStat) : Option (List StringMap) :=
  if GOOS = "linux" then getInodeLoop usage parts [] else some []

/-- `func getInode() string`, given `runtime.GOOS` and the outcomes of
`disk.Partitions(true)` and of `disk.Usage` on each mountpoint. -/
def getInode (GOOS : String) (partitions : Except String (List PartitionStat))
    (usage : String → Except String UsageStat) : Option String :=
  match partitions with
  | .error _ => some "Check Disk Error  Not Found disk "
  | .ok parts => (getInodeList GOOS usage parts).map jsonMarshalMaps

/-- The Linux loop of `getDiskInfo` over the remaining partitions; `totaldisks` is
the map built so far. -/
def getDiskInfoLinuxLoop (usage : String → Except String UsageStat) :
    List PartitionStat → StringMap → Option StringMap
  | [], totaldisks => some totaldisks
  | part :: parts, totaldisks =>
    if stringsContains part.Device "/dev/" && !stringsContains part.Device "loop" then
      match usagePointer usage part.Mountpoint with
      | none => none
      | some partInfo =>
        if stringsContains part.Device "dm-" then
          getDiskInfoLinuxLoop usage parts
            (totaldisks.set part.Mountpoint (sprintfPercent (mathCeil partInfo.UsedPercent)))
        else
          getDiskInfoLinuxLoop usage parts
            (totaldisks.set part.Device (sprintfPercent (mathCeil partInfo.UsedPercent)))
    else getDiskInfoLinuxLoop usage parts totaldisks

/-- The loop of `getDiskInfo` on the other platforms. -/
def getDiskInfoOtherLoop (usage : String → Except String UsageStat) :
    List PartitionStat → StringMap → Option StringMap
  | [], totaldisks => some totaldisks
  | part :: parts, totaldisks =>
    match usagePointer usage part.Mountpoint with
    | none => none
    | some partInfo =>
      getDiskInfoOtherLoop usage parts
        (totaldisks.set (stringsTrimRight part.Device ":")
          (sprintfPercent (mathCeil partInfo.UsedPercent)))

/-- The value of `totaldisks` that `getDiskInfo` marshals once `disk.Partitions`
has succeeded with `parts`. -/
def getDiskInfoMap (GOOS : String) (usage : String → Except String UsageStat)
    (parts : List PartitionStat) : Option StringMap :=
  if GOOS = "linux" then getDiskInfoLinuxLoop usage parts []
  else getDiskInfoOtherLoop usage parts []

/-- `func getDiskInfo() string`, given `runtime.GOOS` and the outcomes of
`disk.Partitions(true)` and of `disk.Usage` on each mountpoint. -/
def getDiskInfo (GOOS : String) (partitions : Except String (List PartitionStat))
    (usage : String → Except String UsageStat) : Option String :=
  match partitions with
  | .error _ => some "Check Disk Error  Not Found disk "
  | .ok parts => (getDiskInfoMap GOOS usage parts).map jsonMarshalMap


/-! ## Definitions used to state and prove the properties -/

/-- The inner loop of `insertionSort` read on the two sides of the moving element:
`x` travels left through the reversed prefix `p` while it is strictly larger than
its left neighbour; `t` is what already lies to its right. -/
def insertLeft (x : ProcessInfo) : List ProcessInfo → List ProcessInfo → List ProcessInfo
  | [], t => x :: t
  | y :: p, t =>
    if x.Memory > y.Memory then insertLeft x p (y :: t) else (y :: p).reverse ++ x :: t

/-- The sample `{Pid, RSS}` of a process whose memory read succeeded, `none` for a
process whose read failed. -/
def readableSample (p : Process) : Option ProcessInfo :=
  match p.MemoryInfo with
  | .ok memInfo => some { Pid := p.Pid, Memory := memInfo.RSS }
  | .error _ => none

/-- The key rule of the specification: a partition whose device path contains
`dm-` is keyed by its mountpoint, any other one by its device path. -/
def dmKey (part : PartitionStat) : String :=
  if stringsContains part.Device "dm-" then part.Mountpoint else part.Device

/-- The filter "device path contains `/dev/` and does not contain `loop`". -/
def devNotLoop (part : PartitionStat) : Bool :=
  stringsContains part.Device "/dev/" && !stringsContains part.Device "loop"

/-- The filter "device path contains `/dev/` and none of `loop`, `/boot/efi`,
`/dev/sda1 -`". -/
def devNotLoopEfiLegacy (part : PartitionStat) : Bool :=
  stringsContains part.Device "/dev/" && !stringsContains part.Device "loop" &&
    !stringsContains part.Device "/boot/efi" && !stringsContains part.Device "/dev/sda1 -"

/-- The keys of a map. -/
def StringMap.keys (m : StringMap) : List String := m.map Prod.fst

/-- A percentage the specification speaks of: a finite `float64` with a clear sign
bit (a quotient of unsigned counts) and a value of at most 100. -/
def isPercentage (x : Float64) : Prop :=
  ∃ mant exp, x = .finite false mant exp ∧ x.toRat ≤ 100


/-! ## The ranking is a sorted permutation -/

theorem swap_adjacent (l : List ProcessInfo) (y x : ProcessInfo) (t : List ProcessInfo) :
    ByMemory.Swap (l ++ y :: x :: t) (l.length + 1) l.length = l ++ x :: y :: t := by
  induction l with
  | nil => simp [ByMemory.Swap]
  | cons a l ih =>
    simp only [ByMemory.Swap] at ih ⊢
    simpa using ih

theorem less_adjacent (l : List ProcessInfo) (y x : ProcessInfo) (t : List ProcessInfo) :
    ByMemory.Less (l ++ y :: x :: t) (l.length + 1) l.length = decide (x.Memory > y.Memory) := by
  induction l with
  | nil => simp [ByMemory.Less]
  | cons a l ih =>
    simp only [ByMemory.Less] at ih ⊢
    simpa using ih

theorem insertionSortInner_eq (x : ProcessInfo) (p t : List ProcessInfo) :
    insertionSortInner (p.reverse ++ x :: t) 0 p.length = insertLeft x p t := by
  induction p generalizing t with
  | nil => simp [insertionSortInner, insertLeft]
  | cons y p ih =>
    have hshape : (y :: p).reverse ++ x :: t = p.reverse ++ y :: x :: t := by simp
    have hlen : (y :: p).length = p.reverse.length + 1 := by simp
    rw [hshape, hlen, insertionSortInner, less_adjacent, swap_adjacent]
    simp only [List.length_reverse, insertLeft]
    by_cases h : x.Memory > y.Memory
    · simp [h, ih]
    · simp [h]

theorem insertLeft_append (x : ProcessInfo) (p s rest : List ProcessInfo) :
    insertLeft x p (s ++ rest) = insertLeft x p s ++ rest := by
  induction p generalizing s with
  | nil => simp [insertLeft]
  | cons y p ih =>
    simp only [insertLeft]
    split
    · simpa using ih (y :: s)
    · simp

theorem insertLeft_perm (x : ProcessInfo) (p s : List ProcessInfo) :
    (insertLeft x p s).Perm (p.reverse ++ x :: s) := by
  induction p generalizing s with
  | nil => simp [insertLeft]
  | cons y p ih =>
    simp only [insertLeft]
    split
    · refine (ih (y :: s)).trans ?_
      simp only [List.reverse_cons, List.append_assoc, List.singleton_append]
      exact List.Perm.append_left _ (List.Perm.swap _ _ _)
    · exact List.Perm.refl _

theorem insertLeft_length (x : ProcessInfo) (p s : List ProcessInfo) :
    (insertLeft x p s).length = p.length + s.length + 1 := by
  have := (insertLeft_perm x p s).length_eq
  simp at this
  omega

theorem insertLeft_sorted (x : ProcessInfo) (p s : List ProcessInfo)
    (hps : (p.reverse ++ s).Pairwise (fun a b => b.Memory ≤ a.Memory))
    (hs : ∀ y ∈ s, y.Memory ≤ x.Memory) :
    (insertLeft x p s).Pairwise (fun a b => b.Memory ≤ a.Memory) := by
  induction p generalizing s with
  | nil =>
    simp only [insertLeft, List.pairwise_cons]
    exact ⟨hs, by simpa using hps⟩
  | cons y p ih =>
    simp only [insertLeft]
    split
    · rename_i hxy
      apply ih
      · simpa using hps
      · intro z hz
        rcases List.mem_cons.1 hz with rfl | hz
        · omega
        · exact hs z hz
    · rename_i hxy
      have hxy : x.Memory ≤ y.Memory := by omega
      rw [List.pairwise_append] at hps ⊢
      obtain ⟨h1, h2, h3⟩ := hps
      refine ⟨h1, ?_, ?_⟩
      · simp only [List.pairwise_cons]
        exact ⟨hs, h2⟩
      · intro a ha b hb
        rcases List.mem_cons.1 hb with rfl | hb
        · have hay : y.Memory ≤ a.Memory := by
            simp only [List.reverse_cons, List.mem_append, List.mem_singleton] at ha
            rcases ha with ha | rfl
            · have := List.pairwise_append.1 (by simpa using h1 : (p.reverse ++ [y]).Pairwise _)
              exact this.2.2 a ha y (by simp)
            · exact le_refl _
          omega
        · exact h3 a ha b hb

theorem insertionSortOuter_spec (rest pre : List ProcessInfo)
    (hpre : pre.Pairwise (fun a b => b.Memory ≤ a.Memory)) :
    (insertionSortOuter 0 rest.length pre.length (pre ++ rest)).Pairwise
        (fun a b => b.Memory ≤ a.Memory) ∧
      (insertionSortOuter 0 rest.length pre.length (pre ++ rest)).Perm (pre ++ rest) := by
  induction rest generalizing pre with
  | nil => simpa [insertionSortOuter] using hpre
  | cons x rest ih =>
    have hinner : insertionSortInner (pre ++ x :: rest) 0 pre.length
        = insertLeft x pre.reverse [] ++ rest := by
      have := insertionSortInner_eq x pre.reverse rest
      simp only [List.reverse_reverse, List.length_reverse] at this
      rw [this]
      simpa using insertLeft_append x pre.reverse [] rest
    have hlen : pre.length + 1 = (insertLeft x pre.reverse []).length := by
      simp [insertLeft_length]
    have hsorted : (insertLeft x pre.reverse []).Pairwise (fun a b => b.Memory ≤ a.Memory) :=
      insertLeft_sorted x pre.reverse [] (by simpa using hpre) (by simp)
    simp only [List.length_cons, insertionSortOuter, hinner]
    rw [hlen]
    obtain ⟨h1, h2⟩ := ih _ hsorted
    refine ⟨h1, h2.trans ?_⟩
    have := insertLeft_perm x pre.reverse []
    simp only [List.reverse_reverse] at this
    have h3 := List.Perm.append_right rest this
    simpa using h3

theorem sortSort_spec (data : List ProcessInfo) :
    (sortSort data).Pairwise (fun a b => b.Memory ≤ a.Memory) ∧ (sortSort data).Perm data := by
  unfold sortSort
  simp only [ByMemory.Len]
  split
  · rename_i h
    refine ⟨?_, List.Perm.refl _⟩
    match data, h with
    | [], _ => simp
    | [a], _ => simp
    | a :: b :: t, h => simp at h
  · rename_i h
    match data, h with
    | [], h => simp at h
    | a :: t, _ =>
      have := insertionSortOuter_spec t [a] (by simp)
      simpa [insertionSort] using this


theorem collectProcessInfo_eq (ps : List Process) (acc : List ProcessInfo) :
    collectProcessInfo ps acc = acc ++ ps.filterMap readableSample := by
  induction ps generalizing acc with
  | nil => simp [collectProcessInfo]
  | cons p ps ih =>
    cases hp : p.MemoryInfo with
    | error e => simp [collectProcessInfo, readableSample, hp, ih, List.filterMap_cons]
    | ok m => simp [collectProcessInfo, readableSample, hp, ih, List.filterMap_cons]

theorem checkPressMem_pairwise (processes : Except String (List Process)) :
    (checkPressMem processes).Pairwise (fun a b => b.Memory ≤ a.Memory) := by
  cases processes with
  | error e => simp [checkPressMem]
  | ok ps => exact (sortSort_spec _).1

/-- C1: the list `checkPressMem` returns is ordered by `Memory`, non-increasing: an
entry at position `i` has at least the `Memory` of every entry at a later position
`j`, whatever the provider returned. -/
theorem checkPressMem_memory_nonincreasing (processes : Except String (List Process))
    (i j : Nat) (a b : ProcessInfo) (hij : i < j)
    (ha : (checkPressMem processes)[i]? = some a)
    (hb : (checkPressMem processes)[j]? = some b) : a.Memory ≥ b.Memory := by
  have hp := checkPressMem_pairwise processes
  rw [List.pairwise_iff_getElem] at hp
  obtain ⟨hi, rfl⟩ := List.getElem?_eq_some_iff.1 ha
  obtain ⟨hj, rfl⟩ := List.getElem?_eq_some_iff.1 hb
  exact hp i j hi hj hij

theorem checkPressMem_memory_nonincreasing_witness :
    (checkPressMem (.ok [⟨7, .ok ⟨300⟩⟩, ⟨8, .error "gone"⟩, ⟨9, .ok ⟨4096⟩⟩, ⟨10, .ok ⟨300⟩⟩]))[0]?
        = some ⟨9, 4096⟩ ∧
      (checkPressMem (.ok [⟨7, .ok ⟨300⟩⟩, ⟨8, .error "gone"⟩, ⟨9, .ok ⟨4096⟩⟩, ⟨10, .ok ⟨300⟩⟩]))[2]?
        = some ⟨10, 300⟩ ∧
      (⟨9, 4096⟩ : ProcessInfo).Memory ≥ (⟨10, 300⟩ : ProcessInfo).Memory :=
  ⟨by decide, by decide,
    checkPressMem_memory_nonincreasing
      (.ok [⟨7, .ok ⟨300⟩⟩, ⟨8, .error "gone"⟩, ⟨9, .ok ⟨4096⟩⟩, ⟨10, .ok ⟨300⟩⟩])
      0 2 ⟨9, 4096⟩ ⟨10, 300⟩ (by decide) (by decide) (by decide)⟩

/-- C2: when the enumeration succeeds, `checkPressMem` returns a permutation of the
samples `{Pid, RSS}` of exactly the processes whose memory read succeeded, one
entry for each of them and none for a process whose read failed; when the
enumeration fails, it returns the empty list. -/
theorem checkPressMem_perm_readable :
    (∀ ps : List Process, (checkPressMem (.ok ps)).Perm (ps.filterMap readableSample)) ∧
      (∀ e : String, checkPressMem (.error e) = []) := by
  refine ⟨fun ps => ?_, fun e => rfl⟩
  have h := (sortSort_spec (collectProcessInfo ps [])).2
  rw [collectProcessInfo_eq] at h
  simpa [checkPressMem, collectProcessInfo_eq] using h

/-- C9 (the code at the failing input): with no process to rank, because the
provider returned none, the enumeration failed or no memory read succeeded,
`checkPressMem` returns a nil slice and the slice expression `Proc[0:5]` of `main`
panics instead of rendering an empty section; with five or more entries the
section renders the first five. -/
theorem mainTopProcesses_panics_on_empty :
    mainTopProcesses (checkPressMem (.ok [])) = none ∧
      mainTopProcesses (checkPressMem (.error "enumeration failed")) = none ∧
      mainTopProcesses (checkPressMem (.ok [⟨1, .error "access denied"⟩])) = none ∧
      mainTopProcesses (checkPressMem (.ok [⟨1, .ok ⟨2097152⟩⟩, ⟨2, .ok ⟨1048576⟩⟩])) = none ∧
      mainTopProcesses (checkPressMem (.ok [⟨1, .ok ⟨1048576⟩⟩, ⟨2, .ok ⟨6291456⟩⟩,
          ⟨3, .ok ⟨3145728⟩⟩, ⟨4, .ok ⟨2097152⟩⟩, ⟨5, .ok ⟨5242880⟩⟩, ⟨6, .ok ⟨4194304⟩⟩])) =
        some ["1. PID: 2, Memory Usage: 6 MB\n", "2. PID: 5, Memory Usage: 5 MB\n",
          "3. PID: 6, Memory Usage: 4 MB\n", "4. PID: 3, Memory Usage: 3 MB\n",
          "5. PID: 4, Memory Usage: 2 MB\n"] := by
  refine ⟨by decide, by decide, by decide, by decide, by decide⟩

/-- C10 (the code at the failing input): when `cpu.Percent` fails, or returns no
sample, `res[0]` panics and `checkCpu` returns no string at all; for the sample
list `[23.456]` it returns `CPU使用率:  23.46%`. -/
theorem checkCpu_panics_without_sample :
    checkCpu (.error "cpu times unavailable") = none ∧
      checkCpu (.ok []) = none ∧
      checkCpu (.ok [.finite false 6602277053725147 (-48)]) = some "CPU使用率:  23.46%" := by
  refine ⟨by decide, by decide, by decide⟩


/-! ## Maps built by assignment -/

theorem StringMap.keys_set (m : StringMap) (k v : String) :
    (m.set k v).keys = if k ∈ m.keys then m.keys else m.keys ++ [k] := by
  induction m with
  | nil => simp [StringMap.set, StringMap.keys]
  | cons kv m ih =>
    obtain ⟨k', v'⟩ := kv
    simp only [StringMap.keys] at ih
    by_cases h : k = k'
    · simp [StringMap.set, StringMap.keys, h]
    · by_cases hm : k ∈ List.map Prod.fst m
      · simp [StringMap.set, StringMap.keys, h, ih, hm]
      · simp [StringMap.set, StringMap.keys, h, ih, hm]

theorem StringMap.mem_keys_set (m : StringMap) (k v k' : String) :
    k' ∈ (m.set k v).keys ↔ k' = k ∨ k' ∈ m.keys := by
  rw [StringMap.keys_set]
  split
  · constructor
    · exact fun h => Or.inr h
    · rintro (rfl | h)
      · assumption
      · exact h
  · simp [or_comm]

theorem StringMap.nodup_keys_set (m : StringMap) (k v : String) (h : m.keys.Nodup) :
    (m.set k v).keys.Nodup := by
  rw [StringMap.keys_set]
  split
  · exact h
  · rename_i hk
    rw [List.nodup_append]
    refine ⟨h, by simp, ?_⟩
    intro a ha hb
    simp only [List.mem_singleton] at hb
    exact hk (hb ▸ ha)

theorem StringMap.mem_set (m : StringMap) (k v : String) (kv : String × String)
    (h : kv ∈ m.set k v) : kv = (k, v) ∨ kv ∈ m := by
  induction m with
  | nil => simpa [StringMap.set] using h
  | cons kv' m ih =>
    obtain ⟨k', v'⟩ := kv'
    by_cases hk : k = k'
    · simp only [StringMap.set, hk, if_true, List.mem_cons] at h
      rcases h with h | h
      · exact Or.inl (by rw [h, hk])
      · exact Or.inr (List.mem_cons_of_mem _ h)
    · simp only [StringMap.set, hk, if_false, List.mem_cons] at h
      rcases h with h | h
      · exact Or.inr (by simp [h])
      · rcases ih h with h | h
        · exact Or.inl h
        · exact Or.inr (List.mem_cons_of_mem _ h)

/-! ## The loops of the disk usage mappers -/

theorem usagePointer_eq_some (usage : String → Except String UsageStat) (mp : String)
    (u : UsageStat) : usagePointer usage mp = some u ↔ usage mp = .ok u := by
  unfold usagePointer
  cases usage mp <;> simp

/-- What a loop that assigns `key part ↦ sprintfPercent (mathCeil (pct usage))` for
every accepted partition leaves in the map. -/
theorem assignLoop_spec (usage : String → Except String UsageStat)
    (accepted : PartitionStat → Bool) (key : PartitionStat → String)
    (pct : UsageStat → Float64)
    (loop : List PartitionStat → StringMap → Option StringMap)
    (hnil : ∀ m, loop [] m = some m)
    (hcons : ∀ part parts m, loop (part :: parts) m =
      if accepted part then
        match usagePointer usage part.Mountpoint with
        | none => none
        | some u => loop parts (m.set (key part) (sprintfPercent (mathCeil (pct u))))
      else loop parts m)
    (parts : List PartitionStat) (m0 m : StringMap) (h : loop parts m0 = some m) :
    (∀ k, k ∈ m.keys ↔ k ∈ m0.keys ∨ ∃ p ∈ parts, accepted p = true ∧ k = key p) ∧
      (m0.keys.Nodup → m.keys.Nodup) ∧
      (∀ kv ∈ m, kv ∈ m0 ∨ ∃ p ∈ parts, accepted p = true ∧ kv.1 = key p ∧
        ∃ u, usage p.Mountpoint = .ok u ∧ kv.2 = sprintfPercent (mathCeil (pct u))) ∧
      (∀ p ∈ parts, accepted p = true → ∃ u, usage p.Mountpoint = .ok u) := by
  induction parts generalizing m0 with
  | nil =>
    rw [hnil] at h
    cases h
    simp
  | cons part parts ih =>
    rw [hcons] at h
    by_cases hacc : accepted part = true
    · rw [if_pos hacc] at h
      cases hu : usagePointer usage part.Mountpoint with
      | none => rw [hu] at h; cases h
      | some u =>
        rw [hu] at h
        have hu' := (usagePointer_eq_some usage _ u).1 hu
        obtain ⟨h1, h2, h3, h4⟩ := ih _ h
        refine ⟨?_, ?_, ?_, ?_⟩
        · intro k
          rw [h1, StringMap.mem_keys_set]
          constructor
          · rintro ((rfl | hk) | ⟨p, hp, hpa, rfl⟩)
            · exact Or.inr ⟨part, List.mem_cons_self _ _, hacc, rfl⟩
            · exact Or.inl hk
            · exact Or.inr ⟨p, List.mem_cons_of_mem _ hp, hpa, rfl⟩
          · rintro (hk | ⟨p, hp, hpa, rfl⟩)
            · exact Or.inl (Or.inr hk)
            · rcases List.mem_cons.1 hp with rfl | hp
              · exact Or.inl (Or.inl rfl)
              · exact Or.inr ⟨p, hp, hpa, rfl⟩
        · exact fun hn => h2 (StringMap.nodup_keys_set _ _ _ hn)
        · intro kv hkv
          rcases h3 kv hkv with hkv | ⟨p, hp, hpa, hk, hv⟩
          · rcases StringMap.mem_set _ _ _ _ hkv with rfl | hkv
            · exact Or.inr ⟨part, List.mem_cons_self _ _, hacc, rfl, u, hu', rfl⟩
            · exact Or.inl hkv
          · exact Or.inr ⟨p, List.mem_cons_of_mem _ hp, hpa, hk, hv⟩
        · intro p hp hpa
          rcases List.mem_cons.1 hp with rfl | hp
          · exact ⟨u, hu'⟩
          · exact h4 p hp hpa
    · rw [if_neg hacc] at h
      obtain ⟨h1, h2, h3, h4⟩ := ih _ h
      refine ⟨?_, h2, ?_, ?_⟩
      · intro k
        rw [h1]
        constructor
        · rintro (hk | ⟨p, hp, hpa, rfl⟩)
          · exact Or.inl hk
          · exact Or.inr ⟨p, List.mem_cons_of_mem _ hp, hpa, rfl⟩
        · rintro (hk | ⟨p, hp, hpa, rfl⟩)
          · exact Or.inl hk
          · rcases List.mem_cons.1 hp with rfl | hp
            · exact absurd hpa hacc
            · exact Or.inr ⟨p, hp, hpa, rfl⟩
      · intro kv hkv
        rcases h3 kv hkv with hkv | ⟨p, hp, hpa, hk, hv⟩
        · exact Or.inl hkv
        · exact Or.inr ⟨p, List.mem_cons_of_mem _ hp, hpa, hk, hv⟩
      · intro p hp hpa
        rcases List.mem_cons.1 hp with rfl | hp
        · exact absurd hpa hacc
        · exact h4 p hp hpa

theorem getDiskInfoLinuxLoop_cons (usage : String → Except String UsageStat)
    (part : PartitionStat) (parts : List PartitionStat) (m : StringMap) :
    getDiskInfoLinuxLoop usage (part :: parts) m =
      if devNotLoop part then
        match usagePointer usage part.Mountpoint with
        | none => none
        | some u =>
          getDiskInfoLinuxLoop usage parts
            (m.set (dmKey part) (sprintfPercent (mathCeil u.UsedPercent)))
      else getDiskInfoLinuxLoop usage parts m := by
  simp only [getDiskInfoLinuxLoop, devNotLoop, dmKey]
  split
  · cases usagePointer usage part.Mountpoint with
    | none => rfl
    | some u => by_cases hd : stringsContains part.Device "dm-" = true <;> simp [hd]
  · rfl

theorem getDiskInfoOtherLoop_cons (usage : String → Except String UsageStat)
    (part : PartitionStat) (parts : List PartitionStat) (m : StringMap) :
    getDiskInfoOtherLoop usage (part :: parts) m =
      if (fun _ : PartitionStat => true) part then
        match usagePointer usage part.Mountpoint with
        | none => none
        | some u =>
          getDiskInfoOtherLoop usage parts
            (m.set (stringsTrimRight part.Device ":") (sprintfPercent (mathCeil u.UsedPercent)))
      else getDiskInfoOtherLoop usage parts m := by
  simp only [getDiskInfoOtherLoop, if_true]

theorem getDiskInfoMap_linux_spec (usage : String → Except String UsageStat)
    (parts : List PartitionStat) (m : StringMap)
    (h : getDiskInfoMap "linux" usage parts = some m) :
    (∀ k, k ∈ m.keys ↔ ∃ p ∈ parts, devNotLoop p = true ∧ k = dmKey p) ∧
      m.keys.Nodup ∧
      (∀ kv ∈ m, ∃ p ∈ parts, devNotLoop p = true ∧ kv.1 = dmKey p ∧
        ∃ u, usage p.Mountpoint = .ok u ∧ kv.2 = sprintfPercent (mathCeil u.UsedPercent)) ∧
      (∀ p ∈ parts, devNotLoop p = true → ∃ u, usage p.Mountpoint = .ok u) := by
  simp only [getDiskInfoMap, if_true] at h
  obtain ⟨h1, h2, h3, h4⟩ := assignLoop_spec usage devNotLoop dmKey (fun u => u.UsedPercent)
    (getDiskInfoLinuxLoop usage) (fun _ => rfl) (getDiskInfoLinuxLoop_cons usage) parts [] m h
  refine ⟨fun k => ?_, h2 (by simp [StringMap.keys]), fun kv hkv => ?_, h4⟩
  · simpa [StringMap.keys] using h1 k
  · simpa using h3 kv hkv

theorem getDiskInfoMap_other_spec (GOOS : String) (hos : GOOS ≠ "linux")
    (usage : String → Except String UsageStat)
    (parts : List PartitionStat) (m : StringMap)
    (h : getDiskInfoMap GOOS usage parts = some m) :
    (∀ k, k ∈ m.keys ↔ ∃ p ∈ parts, k = stringsTrimRight p.Device ":") ∧
      m.keys.Nodup ∧
      (∀ kv ∈ m, ∃ p ∈ parts, kv.1 = stringsTrimRight p.Device ":" ∧
        ∃ u, usage p.Mountpoint = .ok u ∧ kv.2 = sprintfPercent (mathCeil u.UsedPercent)) ∧
      (∀ p ∈ parts, ∃ u, usage p.Mountpoint = .ok u) := by
  simp only [getDiskInfoMap, if_neg hos] at h
  obtain ⟨h1, h2, h3, h4⟩ := assignLoop_spec usage (fun _ => true)
    (fun p => stringsTrimRight p.Device ":") (fun u => u.UsedPercent)
    (getDiskInfoOtherLoop usage) (fun _ => rfl) (getDiskInfoOtherLoop_cons usage) parts [] m h
  refine ⟨fun k => ?_, h2 (by simp [StringMap.keys]), fun kv hkv => ?_, fun p hp => h4 p hp rfl⟩
  · simpa [StringMap.keys] using h1 k
  · simpa using h3 kv hkv

/-- What the Linux loop of `getInode` appends: one single-entry map for each
partition that passes its filter, in enumeration order. -/
theorem getInodeLoop_spec (usage : String → Except String UsageStat)
    (parts : List PartitionStat) (acc l : List StringMap)
    (h : getInodeLoop usage parts acc = some l) :
    ∃ l', l = acc ++ l' ∧
      List.Forall₂ (fun p tm => ∃ u, usage p.Mountpoint = .ok u ∧
          tm = [(dmKey p, sprintfPercent (mathCeil u.InodesUsedPercent))])
        (parts.filter devNotLoopEfiLegacy) l' := by
  induction parts generalizing acc with
  | nil =>
    simp only [getInodeLoop, Option.some.injEq] at h
    exact ⟨[], by simp [h], by simp⟩
  | cons part parts ih =>
    by_cases hacc : devNotLoopEfiLegacy part = true
    · have hacc' := hacc
      simp only [devNotLoopEfiLegacy] at hacc'
      simp only [getInodeLoop, hacc', if_true] at h
      cases hu : usagePointer usage part.Mountpoint with
      | none => rw [hu] at h; cases h
      | some u =>
        rw [hu] at h
        have hu' := (usagePointer_eq_some usage _ u).1 hu
        obtain ⟨l', hl, hf⟩ := ih _ h
        refine ⟨_ :: l', by simpa using hl, ?_⟩
        rw [List.filter_cons_of_pos hacc]
        refine List.Forall₂.cons ⟨u, hu', ?_⟩ hf
        by_cases hd : stringsContains part.Device "dm-" = true <;>
          simp [hd, dmKey, StringMap.set]
    · have hacc' := hacc
      simp only [devNotLoopEfiLegacy] at hacc'
      simp only [getInodeLoop, hacc'] at h
      obtain ⟨l', hl, hf⟩ := ih _ h
      refine ⟨l', hl, ?_⟩
      rw [List.filter_cons_of_neg hacc]
      exact hf

theorem getInodeList_linux_spec (usage : String → Except String UsageStat)
    (parts : List PartitionStat) (l : List StringMap)
    (h : getInodeList "linux" usage parts = some l) :
    List.Forall₂ (fun p tm => ∃ u, usage p.Mountpoint = .ok u ∧
        tm = [(dmKey p, sprintfPercent (mathCeil u.InodesUsedPercent))])
      (parts.filter devNotLoopEfiLegacy) l := by
  simp only [getInodeList, if_true] at h
  obtain ⟨l', hl, hf⟩ := getInodeLoop_spec usage parts [] l h
  simpa [hl] using hf


theorem StringMap.mem_set_of_nodup (m : StringMap) (k v : String) (kv : String × String)
    (hn : m.keys.Nodup) (h : kv ∈ m.set k v) : kv = (k, v) ∨ (kv ∈ m ∧ kv.1 ≠ k) := by
  induction m with
  | nil => exact Or.inl (by simpa [StringMap.set] using h)
  | cons kv' m ih =>
    obtain ⟨k', v'⟩ := kv'
    simp only [StringMap.keys, List.map_cons, List.nodup_cons] at hn
    by_cases hk : k = k'
    · simp only [StringMap.set, hk, if_true, List.mem_cons] at h
      rcases h with h | h
      · exact Or.inl (by rw [h, hk])
      · refine Or.inr ⟨List.mem_cons_of_mem _ h, fun hkv => hn.1 ?_⟩
        rw [← hk, ← hkv]
        exact List.mem_map_of_mem _ h
    · simp only [StringMap.set, hk, if_false, List.mem_cons] at h
      rcases h with h | h
      · subst h
        exact Or.inr ⟨List.mem_cons_self _ _, fun e => hk e.symm⟩
      · rcases ih hn.2 h with h | ⟨h1, h2⟩
        · exact Or.inl h
        · exact Or.inr ⟨List.mem_cons_of_mem _ h1, h2⟩

/-- In a loop that assigns `key part ↦ sprintfPercent (mathCeil (pct usage))` for every
accepted partition, each entry of the final map that was assigned by the loop holds
the value of the last accepted partition with its key. -/
theorem assignLoop_last (usage : String → Except String UsageStat)
    (accepted : PartitionStat → Bool) (key : PartitionStat → String)
    (pct : UsageStat → Float64)
    (loop : List PartitionStat → StringMap → Option StringMap)
    (hnil : ∀ m, loop [] m = some m)
    (hcons : ∀ part parts m, loop (part :: parts) m =
      if accepted part then
        match usagePointer usage part.Mountpoint with
        | none => none
        | some u => loop parts (m.set (key part) (sprintfPercent (mathCeil (pct u))))
      else loop parts m)
    (parts : List PartitionStat) (m0 m : StringMap) (hn : m0.keys.Nodup)
    (h : loop parts m0 = some m) :
    ∀ kv ∈ m, (kv ∈ m0 ∧ ∀ q ∈ parts, accepted q = true → key q ≠ kv.1) ∨
      ∃ pre p post, parts = pre ++ p :: post ∧ accepted p = true ∧ kv.1 = key p ∧
        (∃ u, usage p.Mountpoint = .ok u ∧ kv.2 = sprintfPercent (mathCeil (pct u))) ∧
        ∀ q ∈ post, accepted q = true → key q ≠ kv.1 := by
  induction parts generalizing m0 with
  | nil =>
    rw [hnil] at h
    cases h
    intro kv hkv
    exact Or.inl ⟨hkv, by simp⟩
  | cons part parts ih =>
    rw [hcons] at h
    intro kv hkv
    by_cases hacc : accepted part = true
    · rw [if_pos hacc] at h
      cases hu : usagePointer usage part.Mountpoint with
      | none => rw [hu] at h; cases h
      | some u =>
        rw [hu] at h
        have hu' := (usagePointer_eq_some usage _ u).1 hu
        rcases ih _ (StringMap.nodup_keys_set _ _ _ hn) h kv hkv with
          ⟨hin, hlast⟩ | ⟨pre, p, post, hsplit, hpa, hk, hv, hlast⟩
        · rcases StringMap.mem_set_of_nodup _ _ _ _ hn hin with rfl | ⟨hin0, hne⟩
          · exact Or.inr ⟨[], part, parts, rfl, hacc, rfl, ⟨u, hu', rfl⟩, hlast⟩
          · refine Or.inl ⟨hin0, fun q hq hqa => ?_⟩
            rcases List.mem_cons.1 hq with rfl | hq
            · exact fun e => hne e.symm
            · exact hlast q hq hqa
        · exact Or.inr ⟨part :: pre, p, post, by simp [hsplit], hpa, hk, hv, hlast⟩
    · rw [if_neg hacc] at h
      rcases ih _ hn h kv hkv with
        ⟨hin, hlast⟩ | ⟨pre, p, post, hsplit, hpa, hk, hv, hlast⟩
      · refine Or.inl ⟨hin, fun q hq hqa => ?_⟩
        rcases List.mem_cons.1 hq with rfl | hq
        · exact absurd hqa hacc
        · exact hlast q hq hqa
      · exact Or.inr ⟨part :: pre, p, post, by simp [hsplit], hpa, hk, hv, hlast⟩

/-! ## Rounding up to a whole percent -/

theorem formatV_natural (n : Nat) (hn : n < 10 ^ 6) :
    formatV (.finite false n 0) = toString n := by
  have hn' : n < 1000000 := by simpa using hn
  simp only [formatV, ge_iff_le, le_refl, if_true, Int.toNat_zero, pow_zero, mul_one,
    Bool.false_eq_true, if_false]
  rw [if_pos (by simpa using hn')]
  simp

theorem sprintfPercent_ceil_percentage (mant : Nat) (exp : Int)
    (h : (Float64.finite false mant exp).toRat ≤ 100) :
    ∃ n : Nat, sprintfPercent (mathCeil (.finite false mant exp)) = toString n ++ "%" ∧
      (Float64.finite false mant exp).toRat ≤ n ∧
      (n : ℚ) < (Float64.finite false mant exp).toRat + 1 := by
  simp only [Float64.toRat, Bool.false_eq_true, if_false, one_mul] at h ⊢
  by_cases he : exp ≥ 0
  · obtain ⟨k, rfl⟩ := Int.eq_ofNat_of_zero_le he
    have hval : (mant : ℚ) * (2 : ℚ) ^ (k : ℤ) = ((mant * 2 ^ k : Nat) : ℚ) := by
      rw [zpow_natCast]
      push_cast
      rfl
    rw [hval] at h ⊢
    have hle : mant * 2 ^ k ≤ 100 := by exact_mod_cast h
    refine ⟨mant * 2 ^ k, ?_, le_refl _, by linarith⟩
    simp only [mathCeil, he, if_true, Int.toNat_ofNat, sprintfPercent]
    rw [formatV_natural _ (by omega)]
  · have hneg : exp < 0 := by omega
    obtain ⟨k, hk⟩ : ∃ k : Nat, exp = -(k : ℤ) := ⟨(-exp).toNat, by omega⟩
    subst hk
    have hd : 0 < 2 ^ k := Nat.two_pow_pos k
    have hdq : (0 : ℚ) < ((2 ^ k : Nat) : ℚ) := by exact_mod_cast hd
    have hval : (mant : ℚ) * (2 : ℚ) ^ (-(k : ℤ)) = (mant : ℚ) / ((2 ^ k : Nat) : ℚ) := by
      rw [zpow_neg, zpow_natCast, div_eq_mul_inv]
      push_cast
      rfl
    rw [hval] at h ⊢
    have h1 := Nat.div_mul_le_self (mant + 2 ^ k - 1) (2 ^ k)
    have h2 := Nat.lt_div_mul_add hd (a := mant + 2 ^ k - 1)
    generalize hq : (mant + 2 ^ k - 1) / 2 ^ k = q at h1 h2
    generalize hdd : 2 ^ k = d at *
    have hmd : mant ≤ 100 * d := by
      have := (div_le_iff₀ hdq).1 h
      exact_mod_cast this
    have hlow : mant ≤ q * d := by omega
    have hupp : q * d < mant + d := by omega
    have hq100 : q ≤ 100 := by
      by_contra hc
      have : 101 * d ≤ q * d := Nat.mul_le_mul_right d (by omega)
      omega
    refine ⟨q, ?_, ?_, ?_⟩
    · simp only [mathCeil, he, if_false, Bool.false_eq_true, neg_neg, Int.toNat_ofNat, hdd, hq,
        sprintfPercent]
      rw [formatV_natural _ (by omega)]
    · rw [div_le_iff₀ hdq]
      exact_mod_cast hlow
    · rw [← sub_lt_iff_lt_add, lt_div_iff₀ hdq]
      have : ((q * d : Nat) : ℚ) < ((mant + d : Nat) : ℚ) := by exact_mod_cast hupp
      push_cast at this
      linarith

theorem sprintfPercent_ceil_isPercentage (x : Float64) (h : isPercentage x) :
    ∃ n : Nat, sprintfPercent (mathCeil x) = toString n ++ "%" ∧
      x.toRat ≤ n ∧ (n : ℚ) < x.toRat + 1 := by
  obtain ⟨mant, exp, rfl, hle⟩ := h
  exact sprintfPercent_ceil_percentage mant exp hle

theorem forall₂_exists_left {α β : Type} {R : α → β → Prop} {la : List α} {lb : List β}
    (h : List.Forall₂ R la lb) (b : β) (hb : b ∈ lb) : ∃ a ∈ la, R a b := by
  induction h with
  | nil => cases hb
  | cons hr _ ih =>
    rcases List.mem_cons.1 hb with rfl | hb
    · exact ⟨_, List.mem_cons_self _ _, hr⟩
    · obtain ⟨a, ha, hab⟩ := ih hb
      exact ⟨a, List.mem_cons_of_mem _ ha, hab⟩


/-! ## The disk usage mappers: keys, filters, entries -/

/-- C3 (as stated, refuted): on a platform other than Linux, `getDiskInfo` keys a
partition whose device path contains `dm-` by that device path, not by its
mountpoint. -/
theorem getDiskInfo_other_keys_dm_by_device :
    stringsContains "/dev/dm-0" "dm-" = true ∧
      getDiskInfoMap "freebsd" (fun _ => .ok ⟨.finite false 1 0, .finite false 1 0⟩)
        [⟨"/dev/dm-0", "/data"⟩] = some [("/dev/dm-0", "1%")] ∧
      getDiskInfo "freebsd" (.ok [⟨"/dev/dm-0", "/data"⟩])
        (fun _ => .ok ⟨.finite false 1 0, .finite false 1 0⟩) = some "\x7b\"/dev/dm-0\":\"1%\"\x7d" := by
  refine ⟨by decide, by decide, by decide⟩

/-- C3 (amended): the keys of the map `getDiskInfo` builds are, on Linux, exactly
the keys derived from the partitions that pass its filter by the rule "mountpoint
if the device path contains `dm-`, device path otherwise", and on any other
platform exactly the device paths of all partitions with their trailing colons
stripped, whether or not they contain `dm-`; on Linux `getInode` keys the one
entry of each partition it includes by the same `dm-` rule. -/
theorem getDiskInfo_keys (GOOS : String) (usage : String → Except String UsageStat)
    (parts : List PartitionStat) (m : StringMap) (l : List StringMap)
    (hm : getDiskInfoMap GOOS usage parts = some m)
    (hl : getInodeList GOOS usage parts = some l) :
    (∀ k, k ∈ m.keys ↔ ∃ p ∈ parts,
        if GOOS = "linux" then devNotLoop p = true ∧ k = dmKey p
        else k = stringsTrimRight p.Device ":") ∧
      l.map StringMap.keys =
        if GOOS = "linux" then (parts.filter devNotLoopEfiLegacy).map (fun p => [dmKey p])
        else [] := by
  by_cases hos : GOOS = "linux"
  · subst hos
    refine ⟨fun k => ?_, ?_⟩
    · simpa using (getDiskInfoMap_linux_spec usage parts m hm).1 k
    · have hf := getInodeList_linux_spec usage parts l hl
      simp only [if_true]
      clear hl hm
      generalize parts.filter devNotLoopEfiLegacy = ps at hf
      induction hf with
      | nil => rfl
      | cons hr _ ih =>
        obtain ⟨u, _, rfl⟩ := hr
        simp [StringMap.keys] at ih ⊢
        exact ih
  · refine ⟨fun k => ?_, ?_⟩
    · simpa [hos] using (getDiskInfoMap_other_spec GOOS hos usage parts m hm).1 k
    · simp only [getInodeList, if_neg hos, Option.some.injEq] at hl
      simp [hos, ← hl]

theorem getDiskInfo_keys_witness :
    (∀ k, k ∈ StringMap.keys [("/dev/sda1", "1%"), ("/data", "1%")] ↔
        ∃ p ∈ [(⟨"/dev/sda1", "/"⟩ : PartitionStat), ⟨"/dev/mapper/dm-1", "/data"⟩,
            ⟨"tmpfs", "/run"⟩],
          if "linux" = "linux" then devNotLoop p = true ∧ k = dmKey p
          else k = stringsTrimRight p.Device ":") ∧
      List.map StringMap.keys [[("/dev/sda1", "1%")], [("/data", "1%")]] =
        if "linux" = "linux" then
          (List.filter devNotLoopEfiLegacy [(⟨"/dev/sda1", "/"⟩ : PartitionStat),
            ⟨"/dev/mapper/dm-1", "/data"⟩, ⟨"tmpfs", "/run"⟩]).map (fun p => [dmKey p])
        else [] :=
  getDiskInfo_keys "linux" (fun _ => .ok ⟨.finite false 1 0, .finite false 1 0⟩)
    [⟨"/dev/sda1", "/"⟩, ⟨"/dev/mapper/dm-1", "/data"⟩, ⟨"tmpfs", "/run"⟩]
    [("/dev/sda1", "1%"), ("/data", "1%")] [[("/dev/sda1", "1%")], [("/data", "1%")]]
    (by decide) (by decide)

/-- C4 (as stated, refuted): on Linux a partition whose device path contains
`/boot/efi` (or `/dev/sda1 -`) is included by `getDiskInfo` and left out by
`getInode`; the two variants do not include the same partitions. -/
theorem getDiskInfo_includes_boot_efi :
    devNotLoopEfiLegacy ⟨"/dev/boot/efi", "/boot/efi"⟩ = false ∧
      getDiskInfoMap "linux" (fun _ => .ok ⟨.finite false 1 0, .finite false 1 0⟩)
        [⟨"/dev/boot/efi", "/boot/efi"⟩] = some [("/dev/boot/efi", "1%")] ∧
      getInodeList "linux" (fun _ => .ok ⟨.finite false 1 0, .finite false 1 0⟩)
        [⟨"/dev/boot/efi", "/boot/efi"⟩] = some [] ∧
      getDiskInfoMap "linux" (fun _ => .ok ⟨.finite false 1 0, .finite false 1 0⟩)
        [⟨"/dev/sda1 -", "/"⟩] = some [("/dev/sda1 -", "1%")] ∧
      getInodeList "linux" (fun _ => .ok ⟨.finite false 1 0, .finite false 1 0⟩)
        [⟨"/dev/sda1 -", "/"⟩] = some [] := by
  refine ⟨by decide, by decide, by decide, by decide, by decide⟩

/-- C4 (amended): on Linux `getInode` includes exactly the partitions whose device
path contains `/dev/` and none of `loop`, `/boot/efi`, `/dev/sda1 -` (one map per
such partition, in enumeration order), `getDiskInfo` includes exactly the
partitions whose device path contains `/dev/` and does not contain `loop`; every
partition `getInode` includes is also included by `getDiskInfo`. -/
theorem linux_filters (usage : String → Except String UsageStat)
    (parts : List PartitionStat) (m : StringMap) (l : List StringMap)
    (hm : getDiskInfoMap "linux" usage parts = some m)
    (hl : getInodeList "linux" usage parts = some l) :
    List.Forall₂ (fun p tm => StringMap.keys tm = [dmKey p])
        (parts.filter devNotLoopEfiLegacy) l ∧
      (∀ k, k ∈ m.keys ↔ ∃ p ∈ parts.filter devNotLoop, k = dmKey p) ∧
      (∀ p ∈ parts.filter devNotLoopEfiLegacy,
        p ∈ parts.filter devNotLoop ∧ dmKey p ∈ m.keys) := by
  have hspec := getDiskInfoMap_linux_spec usage parts m hm
  have hkeys : ∀ k, k ∈ m.keys ↔ ∃ p ∈ parts.filter devNotLoop, k = dmKey p := by
    intro k
    rw [hspec.1 k]
    constructor
    · rintro ⟨p, hp, hpa, rfl⟩
      exact ⟨p, List.mem_filter.2 ⟨hp, hpa⟩, rfl⟩
    · rintro ⟨p, hp, rfl⟩
      exact ⟨p, (List.mem_filter.1 hp).1, (List.mem_filter.1 hp).2, rfl⟩
  refine ⟨?_, hkeys, ?_⟩
  · refine List.Forall₂.imp ?_ (getInodeList_linux_spec usage parts l hl)
    rintro p tm ⟨u, _, rfl⟩
    rfl
  · intro p hp
    obtain ⟨hmem, hacc⟩ := List.mem_filter.1 hp
    have h2 : devNotLoop p = true := by
      simp only [devNotLoopEfiLegacy, Bool.and_eq_true] at hacc
      simp only [devNotLoop, Bool.and_eq_true]
      exact ⟨hacc.1.1.1, hacc.1.1.2⟩
    have hin : p ∈ parts.filter devNotLoop := List.mem_filter.2 ⟨hmem, h2⟩
    exact ⟨hin, (hkeys _).2 ⟨p, hin, rfl⟩⟩

theorem linux_filters_witness :
    List.Forall₂ (fun p tm => StringMap.keys tm = [dmKey p])
        (List.filter devNotLoopEfiLegacy [(⟨"/dev/sda1", "/"⟩ : PartitionStat),
          ⟨"/dev/boot/efi", "/boot/efi"⟩, ⟨"/dev/loop3", "/snap/core"⟩])
        [[("/dev/sda1", "1%")]] ∧
      (∀ k, k ∈ StringMap.keys [("/dev/sda1", "1%"), ("/dev/boot/efi", "1%")] ↔
        ∃ p ∈ List.filter devNotLoop [(⟨"/dev/sda1", "/"⟩ : PartitionStat),
          ⟨"/dev/boot/efi", "/boot/efi"⟩, ⟨"/dev/loop3", "/snap/core"⟩], k = dmKey p) ∧
      (∀ p ∈ List.filter devNotLoopEfiLegacy [(⟨"/dev/sda1", "/"⟩ : PartitionStat),
          ⟨"/dev/boot/efi", "/boot/efi"⟩, ⟨"/dev/loop3", "/snap/core"⟩],
        p ∈ List.filter devNotLoop [(⟨"/dev/sda1", "/"⟩ : PartitionStat),
          ⟨"/dev/boot/efi", "/boot/efi"⟩, ⟨"/dev/loop3", "/snap/core"⟩] ∧
        dmKey p ∈ StringMap.keys [("/dev/sda1", "1%"), ("/dev/boot/efi", "1%")]) :=
  linux_filters (fun _ => .ok ⟨.finite false 1 0, .finite false 1 0⟩)
    [⟨"/dev/sda1", "/"⟩, ⟨"/dev/boot/efi", "/boot/efi"⟩, ⟨"/dev/loop3", "/snap/core"⟩]
    [("/dev/sda1", "1%"), ("/dev/boot/efi", "1%")] [[("/dev/sda1", "1%")]]
    (by decide) (by decide)

/-- C5 (the code at the failing input): when `disk.Usage` fails on the mountpoint
of an included partition, the error is discarded and the nil `partInfo` is
dereferenced: `getDiskInfo` (on Linux and elsewhere) and `getInode` panic and
return nothing, also for the other partitions, whose usage reads succeed. -/
theorem disk_usage_failure_panics :
    getDiskInfo "linux" (.ok [⟨"/dev/sda1", "/"⟩, ⟨"/dev/sdb1", "/mnt"⟩])
        (fun mp => if mp = "/mnt" then .error "permission denied"
          else .ok ⟨.finite false 1 0, .finite false 1 0⟩) = none ∧
      getInode "linux" (.ok [⟨"/dev/sda1", "/"⟩, ⟨"/dev/sdb1", "/mnt"⟩])
        (fun mp => if mp = "/mnt" then .error "permission denied"
          else .ok ⟨.finite false 1 0, .finite false 1 0⟩) = none ∧
      getDiskInfo "windows" (.ok [⟨"C:", "C:"⟩, ⟨"D:", "D:"⟩])
        (fun mp => if mp = "D:" then .error "device not ready"
          else .ok ⟨.finite false 1 0, .finite false 1 0⟩) = none ∧
      getDiskInfo "linux" (.ok [⟨"/dev/sda1", "/"⟩])
        (fun mp => if mp = "/mnt" then .error "permission denied"
          else .ok ⟨.finite false 1 0, .finite false 1 0⟩) = some "\x7b\"/dev/sda1\":\"1%\"\x7d" := by
  refine ⟨by decide, by decide, by decide, by decide⟩

/-- C6 (as stated, refuted): when two partitions that `getInode` includes derive
the same key (one device mounted twice), the result of `getInode` holds that key
twice, once in each of two single-entry maps. -/
theorem getInode_repeats_key :
    getInodeList "linux" (fun _ => .ok ⟨.finite false 1 0, .finite false 1 0⟩)
        [⟨"/dev/sda1", "/"⟩, ⟨"/dev/sda1", "/home"⟩] =
        some [[("/dev/sda1", "1%")], [("/dev/sda1", "1%")]] ∧
      ¬ (List.flatMap [[("/dev/sda1", "1%")], [("/dev/sda1", "1%")]] StringMap.keys).Nodup ∧
      getInode "linux" (.ok [⟨"/dev/sda1", "/"⟩, ⟨"/dev/sda1", "/home"⟩])
        (fun _ => .ok ⟨.finite false 1 0, .finite false 1 0⟩) =
        some "[\x7b\"/dev/sda1\":\"1%\"\x7d,\x7b\"/dev/sda1\":\"1%\"\x7d]" := by
  refine ⟨by decide, by decide, by decide⟩

/-- C6 (amended): the map of `getDiskInfo` holds no key more than once; each of its
entries is the derived key of a partition the platform filter accepted together
with the rounded-up `UsedPercent` of the last accepted partition that derives this
key (a later one overwrites the entry), and the derived key of every accepted
partition is present; the result of `getInode` is a list with one single-entry map
(derived key, rounded-up `InodesUsedPercent`) for each partition its filter
accepted, in enumeration order, and the empty list on a platform other than
Linux. -/
theorem disk_results_from_accepted (GOOS : String)
    (usage : String → Except String UsageStat)
    (parts : List PartitionStat) (m : StringMap) (l : List StringMap)
    (hm : getDiskInfoMap GOOS usage parts = some m)
    (hl : getInodeList GOOS usage parts = some l) :
    m.keys.Nodup ∧
      (∀ kv ∈ m, ∃ pre p post u, parts = pre ++ p :: post ∧
        usage p.Mountpoint = .ok u ∧
        kv.2 = sprintfPercent (mathCeil u.UsedPercent) ∧
        if GOOS = "linux" then
          devNotLoop p = true ∧ kv.1 = dmKey p ∧
            ∀ q ∈ post, devNotLoop q = true → dmKey q ≠ kv.1
        else
          kv.1 = stringsTrimRight p.Device ":" ∧
            ∀ q ∈ post, stringsTrimRight q.Device ":" ≠ kv.1) ∧
      (∀ p ∈ parts,
        if GOOS = "linux" then devNotLoop p = true → dmKey p ∈ m.keys
        else stringsTrimRight p.Device ":" ∈ m.keys) ∧
      List.Forall₂ (fun p tm => ∃ u, usage p.Mountpoint = .ok u ∧
          tm = [(dmKey p, sprintfPercent (mathCeil u.InodesUsedPercent))])
        (if GOOS = "linux" then parts.filter devNotLoopEfiLegacy else []) l := by
  by_cases hos : GOOS = "linux"
  · subst hos
    obtain ⟨h1, h2, _, _⟩ := getDiskInfoMap_linux_spec usage parts m hm
    simp only [getDiskInfoMap, if_true] at hm
    have hlast := assignLoop_last usage devNotLoop dmKey (fun u => u.UsedPercent)
      (getDiskInfoLinuxLoop usage) (fun _ => rfl) (getDiskInfoLinuxLoop_cons usage) parts [] m
      (by simp [StringMap.keys]) hm
    refine ⟨h2, fun kv hkv => ?_, fun p hp => ?_,
      by simpa using getInodeList_linux_spec usage parts l hl⟩
    · rcases hlast kv hkv with ⟨hin, _⟩ | ⟨pre, p, post, hsplit, hpa, hk, ⟨u, hu, hv⟩, hl'⟩
      · cases hin
      · exact ⟨pre, p, post, u, hsplit, hu, hv, by simp only [if_true]; exact ⟨hpa, hk, hl'⟩⟩
    · simp only [if_true]
      exact fun hpa => (h1 _).2 ⟨p, hp, hpa, rfl⟩
  · obtain ⟨h1, h2, _, _⟩ := getDiskInfoMap_other_spec GOOS hos usage parts m hm
    simp only [getDiskInfoMap, if_neg hos] at hm
    have hlast := assignLoop_last usage (fun _ => true)
      (fun p => stringsTrimRight p.Device ":") (fun u => u.UsedPercent)
      (getDiskInfoOtherLoop usage) (fun _ => rfl) (getDiskInfoOtherLoop_cons usage) parts [] m
      (by simp [StringMap.keys]) hm
    refine ⟨h2, fun kv hkv => ?_, fun p hp => ?_, ?_⟩
    · rcases hlast kv hkv with ⟨hin, _⟩ | ⟨pre, p, post, hsplit, _, hk, ⟨u, hu, hv⟩, hl'⟩
      · cases hin
      · refine ⟨pre, p, post, u, hsplit, hu, hv, ?_⟩
        rw [if_neg hos]
        exact ⟨hk, fun q hq => hl' q hq rfl⟩
    · rw [if_neg hos]
      exact (h1 _).2 ⟨p, hp, rfl⟩
    · simp only [getInodeList, if_neg hos, Option.some.injEq] at hl
      simp [hos, ← hl]

theorem disk_results_from_accepted_witness :
    (StringMap.keys [("/dev/sda1", "90%")]).Nodup ∧
      (∀ kv ∈ ([("/dev/sda1", "90%")] : StringMap), ∃ pre p post u,
        [(⟨"/dev/sda1", "/"⟩ : PartitionStat), ⟨"/dev/sda1", "/home"⟩] = pre ++ p :: post ∧
        (fun mp : String =>
          if mp = "/" then
            (.ok ⟨.finite false 10 0, .finite false 10 0⟩ : Except String UsageStat)
          else .ok ⟨.finite false 90 0, .finite false 90 0⟩) p.Mountpoint = .ok u ∧
        kv.2 = sprintfPercent (mathCeil u.UsedPercent) ∧
        if "linux" = "linux" then
          devNotLoop p = true ∧ kv.1 = dmKey p ∧
            ∀ q ∈ post, devNotLoop q = true → dmKey q ≠ kv.1
        else
          kv.1 = stringsTrimRight p.Device ":" ∧
            ∀ q ∈ post, stringsTrimRight q.Device ":" ≠ kv.1) ∧
      (∀ p ∈ [(⟨"/dev/sda1", "/"⟩ : PartitionStat), ⟨"/dev/sda1", "/home"⟩],
        if "linux" = "linux" then
          devNotLoop p = true → dmKey p ∈ StringMap.keys [("/dev/sda1", "90%")]
        else stringsTrimRight p.Device ":" ∈ StringMap.keys [("/dev/sda1", "90%")]) ∧
      List.Forall₂ (fun p tm => ∃ u,
          (fun mp : String =>
            if mp = "/" then
              (.ok ⟨.finite false 10 0, .finite false 10 0⟩ : Except String UsageStat)
            else .ok ⟨.finite false 90 0, .finite false 90 0⟩) p.Mountpoint = .ok u ∧
          tm = [(dmKey p, sprintfPercent (mathCeil u.InodesUsedPercent))])
        (if "linux" = "linux" then
          List.filter devNotLoopEfiLegacy
            [(⟨"/dev/sda1", "/"⟩ : PartitionStat), ⟨"/dev/sda1", "/home"⟩]
          else [])
        [[("/dev/sda1", "10%")], [("/dev/sda1", "90%")]] :=
  disk_results_from_accepted "linux"
    (fun mp => if mp = "/" then .ok ⟨.finite false 10 0, .finite false 10 0⟩
      else .ok ⟨.finite false 90 0, .finite false 90 0⟩)
    [⟨"/dev/sda1", "/"⟩, ⟨"/dev/sda1", "/home"⟩]
    [("/dev/sda1", "90%")] [[("/dev/sda1", "10%")], [("/dev/sda1", "90%")]]
    (by decide) (by decide)

/-- Every entry of the two results comes from a partition whose usage read
succeeded, with the value `sprintfPercent (mathCeil ·)` of its percentage. -/
theorem disk_results_from_accepted_aux (GOOS : String)
    (usage : String → Except String UsageStat)
    (parts : List PartitionStat) (m : StringMap) (l : List StringMap)
    (hm : getDiskInfoMap GOOS usage parts = some m)
    (hl : getInodeList GOOS usage parts = some l) :
    m.keys.Nodup ∧
      (∀ kv ∈ m, ∃ p ∈ parts, ∃ u, usage p.Mountpoint = .ok u ∧
        kv.2 = sprintfPercent (mathCeil u.UsedPercent)) ∧
      List.Forall₂ (fun p tm => ∃ u, usage p.Mountpoint = .ok u ∧
          tm = [(dmKey p, sprintfPercent (mathCeil u.InodesUsedPercent))])
        (if GOOS = "linux" then parts.filter devNotLoopEfiLegacy else []) l := by
  by_cases hos : GOOS = "linux"
  · subst hos
    obtain ⟨_, h2, h3, _⟩ := getDiskInfoMap_linux_spec usage parts m hm
    refine ⟨h2, fun kv hkv => ?_, by simpa using getInodeList_linux_spec usage parts l hl⟩
    obtain ⟨p, hp, _, _, u, hu, hv⟩ := h3 kv hkv
    exact ⟨p, hp, u, hu, hv⟩
  · obtain ⟨_, h2, h3, _⟩ := getDiskInfoMap_other_spec GOOS hos usage parts m hm
    refine ⟨h2, fun kv hkv => ?_, ?_⟩
    · obtain ⟨p, hp, _, u, hu, hv⟩ := h3 kv hkv
      exact ⟨p, hp, u, hu, hv⟩
    · simp only [getInodeList, if_neg hos, Option.some.injEq] at hl
      simp [hos, ← hl]


/-! ## Stored percentages and the other platforms -/

/-- C7: every value stored by `getDiskInfo` (from `UsedPercent`) and by `getInode`
(from `InodesUsedPercent`) for a percentage `p` with `0 ≤ p ≤ 100` is the decimal
numeral of a whole number `n` followed by `%`, where `p ≤ n < p + 1`, that is
`n = ceil(p)`; the double written `72.01` gives `73%` and `72.00` gives `72%`. -/
theorem stored_percentage_is_ceiling (GOOS : String)
    (usage : String → Except String UsageStat)
    (parts : List PartitionStat) (m : StringMap) (l : List StringMap)
    (hpct : ∀ p ∈ parts, ∀ u, usage p.Mountpoint = .ok u →
      isPercentage u.UsedPercent ∧ isPercentage u.InodesUsedPercent)
    (hm : getDiskInfoMap GOOS usage parts = some m)
    (hl : getInodeList GOOS usage parts = some l) :
    (∀ kv ∈ m, ∃ p ∈ parts, ∃ u, usage p.Mountpoint = .ok u ∧ ∃ n : Nat,
        kv.2 = toString n ++ "%" ∧
        u.UsedPercent.toRat ≤ n ∧ (n : ℚ) < u.UsedPercent.toRat + 1) ∧
      (∀ tm ∈ l, ∀ kv ∈ tm, ∃ p ∈ parts, ∃ u, usage p.Mountpoint = .ok u ∧ ∃ n : Nat,
        kv.2 = toString n ++ "%" ∧
        u.InodesUsedPercent.toRat ≤ n ∧ (n : ℚ) < u.InodesUsedPercent.toRat + 1) ∧
      sprintfPercent (mathCeil (.finite false 5067253268233585 (-46))) = "73%" ∧
      sprintfPercent (mathCeil (.finite false 5066549580791808 (-46))) = "72%" := by
  obtain ⟨_, hdisk, hinode⟩ := disk_results_from_accepted_aux GOOS usage parts m l hm hl
  refine ⟨fun kv hkv => ?_, fun tm htm kv hkv => ?_, by decide, by decide⟩
  · obtain ⟨p, hp, u, hu, hv⟩ := hdisk kv hkv
    obtain ⟨n, hn, hlo, hhi⟩ := sprintfPercent_ceil_isPercentage _ (hpct p hp u hu).1
    exact ⟨p, hp, u, hu, n, hv.trans hn, hlo, hhi⟩
  · obtain ⟨p, hp, u, hu, rfl⟩ := forall₂_exists_left hinode tm htm
    simp only [List.mem_singleton] at hkv
    subst hkv
    have hp' : p ∈ parts := by
      by_cases hos : GOOS = "linux"
      · rw [if_pos hos] at hp
        exact (List.mem_filter.1 hp).1
      · rw [if_neg hos] at hp
        cases hp
    obtain ⟨n, hn, hlo, hhi⟩ := sprintfPercent_ceil_isPercentage _ (hpct p hp' u hu).2
    exact ⟨p, hp', u, hu, n, hn, hlo, hhi⟩

theorem stored_percentage_is_ceiling_witness :
    (∀ kv ∈ ([("/data", "82%")] : StringMap),
        ∃ p ∈ [(⟨"/dev/mapper/dm-1", "/data"⟩ : PartitionStat)],
        ∃ u, (fun _ : String => (.ok ⟨.finite false 5713942027226317 (-46),
            .finite false 5067253268233585 (-46)⟩ : Except String UsageStat))
              p.Mountpoint = .ok u ∧ ∃ n : Nat,
          kv.2 = toString n ++ "%" ∧
          u.UsedPercent.toRat ≤ n ∧ (n : ℚ) < u.UsedPercent.toRat + 1) ∧
      (∀ tm ∈ ([[("/data", "73%")]] : List StringMap), ∀ kv ∈ tm,
        ∃ p ∈ [(⟨"/dev/mapper/dm-1", "/data"⟩ : PartitionStat)],
        ∃ u, (fun _ : String => (.ok ⟨.finite false 5713942027226317 (-46),
            .finite false 5067253268233585 (-46)⟩ : Except String UsageStat))
              p.Mountpoint = .ok u ∧ ∃ n : Nat,
          kv.2 = toString n ++ "%" ∧
          u.InodesUsedPercent.toRat ≤ n ∧ (n : ℚ) < u.InodesUsedPercent.toRat + 1) ∧
      sprintfPercent (mathCeil (.finite false 5067253268233585 (-46))) = "73%" ∧
      sprintfPercent (mathCeil (.finite false 5066549580791808 (-46))) = "72%" :=
  stored_percentage_is_ceiling "linux"
    (fun _ => .ok ⟨.finite false 5713942027226317 (-46), .finite false 5067253268233585 (-46)⟩)
    [⟨"/dev/mapper/dm-1", "/data"⟩] [("/data", "82%")] [[("/data", "73%")]]
    (by
      intro p _ u hu
      simp only [Except.ok.injEq] at hu
      subst hu
      refine ⟨⟨_, _, rfl, ?_⟩, ⟨_, _, rfl, ?_⟩⟩ <;>
        · simp only [Float64.toRat, Bool.false_eq_true, if_false]
          norm_num)
    (by decide) (by decide)

/-- C8 (as stated, refuted): on a platform other than Linux, when
`disk.Partitions` fails `getInode` returns its error string, not an encoded empty
result. -/
theorem getInode_other_error_string :
    getInode "windows" (.error "partition table unreadable")
        (fun _ => .error "unused") = some "Check Disk Error  Not Found disk " ∧
      getInode "windows" (.error "partition table unreadable")
        (fun _ => .error "unused") ≠ some "[]" ∧
      getInode "windows" (.error "partition table unreadable")
        (fun _ => .error "unused") ≠ some "\x7b\x7d" := by
  refine ⟨by decide, by decide, by decide⟩

/-- C8 (amended): on a platform other than Linux, `checkCpuLoad` returns the empty
string for every outcome of the core-count and load-average calls (it makes
neither), and `getInode` returns `[]`, the encoding of an empty list, whenever
`disk.Partitions` succeeds, whatever `disk.Usage` would return; when
`disk.Partitions` fails it returns the string `Check Disk Error  Not Found disk `. -/
theorem other_platform_results (GOOS : String) (hos : GOOS ≠ "linux")
    (counts : Except String Int) (avg : Except String AvgStat)
    (partitions : Except String (List PartitionStat))
    (usage : String → Except String UsageStat) :
    checkCpuLoad GOOS counts avg = "" ∧
      getInode GOOS partitions usage =
        match partitions with
        | .ok _ => some "[]"
        | .error _ => some "Check Disk Error  Not Found disk " := by
  refine ⟨by simp [checkCpuLoad, hos], ?_⟩
  cases partitions with
  | error e => rfl
  | ok parts =>
    simp only [getInode, getInodeList, if_neg hos, Option.map_some']
    rfl

theorem other_platform_results_witness :
    ¬ "darwin" = "linux" ∧
      checkCpuLoad "darwin" (.error "no core count") (.error "no load average") = "" ∧
      getInode "darwin" (.ok [⟨"/dev/disk1s1", "/"⟩]) (fun _ => .error "statfs failed") =
        match (.ok [⟨"/dev/disk1s1", "/"⟩] : Except String (List PartitionStat)) with
        | .ok _ => some "[]"
        | .error _ => some "Check Disk Error  Not Found disk " :=
  ⟨by decide,
    other_platform_results "darwin" (by decide) (.error "no core count")
      (.error "no load average") (.ok [⟨"/dev/disk1s1", "/"⟩]) (fun _ => .error "statfs failed")⟩

end CheckResources
